import Mathlib

/-!
Verification of the consensus-integrity core of an Albatross-style
proof-of-stake node: the fork-proof pool, the signed-message envelope,
peer-address serialization, and the aggregation-layer configuration.

The Rust sources are embedded shallowly: the pool's hash map and hash set
become association lists with first-match lookup, machine integers become
`Nat` with explicit bounds where overflow matters, external collaborators
(blockchain state, BLS crypto, Blake2b hashing, leaf codecs) become
explicit parameters.
-/

namespace Albatross

/-! ## Fork-proof pool: data model (fork-proof-pool/src/lib.rs) -/

/-- A per-epoch slashed set (`collections::BitSet`), bits indexed by slot
number; modelled as the list of set bit indices. -/
abbrev BitSet := List Nat

/-- Membership test of `collections::BitSet`. -/
def BitSet.containsBit (s : BitSet) (n : Nat) : Bool := decide (n ∈ s)

/-- The header fields of a block that the pool reads
(`fork_proof.header1.block_number` / `.view_number`). -/
structure BlockHeader where
  block_number : Nat
  view_number : Nat
deriving DecidableEq

/-- `block_albatross::ForkProof`: two distinct headers at the same position
with their justifications. The justifications are opaque to the pool and are
modelled as natural numbers. -/
structure ForkProof where
  header1 : BlockHeader
  header2 : BlockHeader
  justification1 : Nat
  justification2 : Nat
deriving DecidableEq

/-- The external collaborators consumed by the pool: the blockchain handle
(`state()`, `get_slot_at`, `slashed_set_for_epoch`), `policy::epoch_at`,
Blake2b hashing of fork proofs, `ForkProof::is_valid_at`,
`ForkProof::verify` and `ForkProof::serialized_size`. A slot is represented
by its uncompressed validator public key (a `Nat`). -/
structure Chain where
  hashFn : ForkProof → Nat
  blockNumber : Nat
  epochAt : Nat → Nat
  isValidAt : ForkProof → Nat → Bool
  getSlotAt : Nat → Nat → Option (Nat × Nat)
  slashedSetForEpoch : Nat → Option BitSet
  verifyProof : ForkProof → Nat → Except Nat Unit
  serializedSize : ForkProof → Nat

/-- `ForkProofPool` state: `fork_proofs : HashMap<Blake2bHash, (ForkProof, u16)>`
as an association list with first-match lookup, and
`fork_proof_slots : HashSet<u16>` as a duplicate-free list. -/
structure ForkProofPool where
  fork_proofs : List (Nat × ForkProof × Nat)
  fork_proof_slots : List Nat
deriving DecidableEq

/-- `ForkProofPoolError` (fork-proof-pool/src/lib.rs, lines 26-36). -/
inductive ForkProofPoolError where
  | SlotAlreadySlashed
  | InvalidEpochTarget
  | UnexpectedBlock
  | InvalidProof (cause : Nat)
deriving DecidableEq

/-! ### Association-list operations standing for HashMap / HashSet -/

/-- `HashMap::contains_key`. -/
def mapContainsKey : List (Nat × ForkProof × Nat) → Nat → Bool
  | [], _ => false
  | e :: rest, k => decide (e.1 = k) || mapContainsKey rest k

/-- `HashMap::get`. -/
def mapLookup : List (Nat × ForkProof × Nat) → Nat → Option (ForkProof × Nat)
  | [], _ => none
  | e :: rest, k => if e.1 = k then some e.2 else mapLookup rest k

/-- `HashMap::insert`: replace the binding when the key is present,
otherwise add it. -/
def mapInsert : List (Nat × ForkProof × Nat) → Nat → ForkProof × Nat → List (Nat × ForkProof × Nat)
  | [], k, v => [(k, v)]
  | e :: rest, k, v => if e.1 = k then (k, v) :: rest else e :: mapInsert rest k v

/-- `HashMap::remove`, dropping every binding of the key. -/
def mapRemove : List (Nat × ForkProof × Nat) → Nat → List (Nat × ForkProof × Nat)
  | [], _ => []
  | e :: rest, k => if e.1 = k then mapRemove rest k else e :: mapRemove rest k

/-- `HashSet::insert`: returns whether the value is new, plus the new set. -/
def setInsert (s : List Nat) (n : Nat) : Bool × List Nat :=
  if n ∈ s then (false, s) else (true, s ++ [n])

/-- `HashSet::remove` (the returned boolean of the Rust call is unused). -/
def setRemove (s : List Nat) (n : Nat) : List Nat :=
  s.filter (fun m => decide (m ≠ n))

/-! ### Pool operations (fork-proof-pool/src/lib.rs, lines 38-165) -/

/-- `ForkProofPool::insert` (lines 50-89), in state-passing style: the second
component is the pool after the call (unchanged on every early return). -/
def ForkProofPool.insert (chain : Chain) (pool : ForkProofPool) (forkProof : ForkProof) :
    Except ForkProofPoolError Bool × ForkProofPool :=
  let hash := chain.hashFn forkProof
  if mapContainsKey pool.fork_proofs hash then (Except.ok false, pool)
  else
    let blockchainHeight := chain.blockNumber
    if ¬ chain.isValidAt forkProof blockchainHeight then
      (Except.error ForkProofPoolError.InvalidEpochTarget, pool)
    else
      let blockNumber := forkProof.header1.block_number
      let viewNumber := forkProof.header1.view_number
      let epoch := chain.epochAt blockNumber
      match chain.getSlotAt blockNumber viewNumber with
      | none => (Except.error ForkProofPoolError.UnexpectedBlock, pool)
      | some (slotKey, slotNumber) =>
        match chain.slashedSetForEpoch epoch with
        | none => (Except.error ForkProofPoolError.InvalidEpochTarget, pool)
        | some slashedSet =>
          if slashedSet.containsBit slotNumber || decide (slotNumber ∈ pool.fork_proof_slots) then
            (Except.error ForkProofPoolError.SlotAlreadySlashed, pool)
          else
            match chain.verifyProof forkProof slotKey with
            | Except.error e => (Except.error (ForkProofPoolError.InvalidProof e), pool)
            | Except.ok _ =>
              let fork_proofs := mapInsert pool.fork_proofs (chain.hashFn forkProof)
                (forkProof, slotNumber)
              let r := setInsert pool.fork_proof_slots slotNumber
              (Except.ok r.1, { fork_proofs := fork_proofs, fork_proof_slots := r.2 })

/-- `ForkProofPool::contains_hash` (lines 97-99). -/
def ForkProofPool.contains_hash (pool : ForkProofPool) (h : Nat) : Bool :=
  mapContainsKey pool.fork_proofs h

/-- `ForkProofPool::contains` (lines 92-94). -/
def ForkProofPool.containsProof (chain : Chain) (pool : ForkProofPool) (fp : ForkProof) : Bool :=
  pool.contains_hash (chain.hashFn fp)

/-- `ForkProofPool::get` (lines 102-104). -/
def ForkProofPool.get (pool : ForkProofPool) (h : Nat) : Option ForkProof :=
  (mapLookup pool.fork_proofs h).map (fun v => v.1)

/-- `ForkProofPool::housekeeping` (lines 107-121): retain a proof iff it is
still valid at `blockNumber` and its slot is not in the relevant slashed
set. Note the Rust code never touches `fork_proof_slots` here. -/
def ForkProofPool.housekeeping (chain : Chain) (pool : ForkProofPool) (blockNumber : Nat)
    (currentSlashedSet previousSlashedSet : BitSet) : ForkProofPool :=
  let currentEpoch := chain.epochAt blockNumber
  { pool with fork_proofs := pool.fork_proofs.filter (fun e =>
      let forkProof := e.2.1
      let slotNumber := e.2.2
      if ¬ chain.isValidAt forkProof blockNumber then false
      else if chain.epochAt forkProof.header1.block_number = currentEpoch then
        ! currentSlashedSet.containsBit slotNumber
      else
        ! previousSlashedSet.containsBit slotNumber) }

/-- The micro-block extrinsics field the pool reads (`extrinsics.fork_proofs`). -/
structure MicroExtrinsics where
  fork_proofs : List ForkProof
deriving DecidableEq

/-- A block, as far as the pool observes it: a micro block with an optional
extrinsics body, or any other block kind. -/
inductive Block where
  | micro (extrinsics : Option MicroExtrinsics)
  | macroBlock
deriving DecidableEq

/-- The body of the `apply_block` loop (lines 126-130). -/
def ForkProofPool.applyForkProof (chain : Chain) (pool : ForkProofPool) (forkProof : ForkProof) :
    ForkProofPool :=
  match mapLookup pool.fork_proofs (chain.hashFn forkProof) with
  | some (_, slotNumber) =>
      { fork_proofs := mapRemove pool.fork_proofs (chain.hashFn forkProof),
        fork_proof_slots := setRemove pool.fork_proof_slots slotNumber }
  | none => pool

/-- `ForkProofPool::apply_block` (lines 124-132). -/
def ForkProofPool.apply_block (chain : Chain) (pool : ForkProofPool) (block : Block) :
    ForkProofPool :=
  match block with
  | Block.micro (some extrinsics) =>
      extrinsics.fork_proofs.foldl (ForkProofPool.applyForkProof chain) pool
  | _ => pool

/-- The body of the `revert_block` loop (lines 137-148): re-resolve the slot
and re-add; skip the proof when the slot cannot be determined. -/
def ForkProofPool.revertForkProof (chain : Chain) (pool : ForkProofPool) (forkProof : ForkProof) :
    ForkProofPool :=
  match chain.getSlotAt forkProof.header1.block_number forkProof.header1.view_number with
  | some (_, slotNumber) =>
      { fork_proofs := mapInsert pool.fork_proofs (chain.hashFn forkProof) (forkProof, slotNumber),
        fork_proof_slots := (setInsert pool.fork_proof_slots slotNumber).2 }
  | none => pool

/-- `ForkProofPool::revert_block` (lines 135-151). -/
def ForkProofPool.revert_block (chain : Chain) (pool : ForkProofPool) (block : Block) :
    ForkProofPool :=
  match block with
  | Block.micro (some extrinsics) =>
      extrinsics.fork_proofs.foldl (ForkProofPool.revertForkProof chain) pool
  | _ => pool

/-- The loop of `get_fork_proofs_for_block` (lines 155-162), carrying the
running total of serialized sizes. -/
def getForkProofsGo (chain : Chain) (maxSize : Nat) :
    List (Nat × ForkProof × Nat) → Nat → List ForkProof
  | [], _ => []
  | e :: rest, size =>
      let proof := e.2.1
      if size + chain.serializedSize proof < maxSize then
        proof :: getForkProofsGo chain maxSize rest (size + chain.serializedSize proof)
      else
        getForkProofsGo chain maxSize rest size

/-- `ForkProofPool::get_fork_proofs_for_block` (lines 154-164). -/
def ForkProofPool.get_fork_proofs_for_block (chain : Chain) (pool : ForkProofPool)
    (maxSize : Nat) : List ForkProof :=
  getForkProofsGo chain maxSize pool.fork_proofs 0

/-- The §3 invariant tying `fork_proof_slots` to `fork_proofs`: the slot set
is exactly the set of slot numbers stored in the map's values, and no two
entries share a slot number. -/
def ForkProofPool.SlotsInSync (pool : ForkProofPool) : Prop :=
  (∀ n, n ∈ pool.fork_proof_slots ↔ ∃ e ∈ pool.fork_proofs, e.2.2 = n)
  ∧ (∀ e1 ∈ pool.fork_proofs, ∀ e2 ∈ pool.fork_proofs, e1.2.2 = e2.2.2 → e1 = e2)

/-- Whether a block is a micro block carrying an extrinsics body — the only
shape on which `apply_block` and `revert_block` act. -/
def Block.hasForkProofExtrinsics : Block → Bool
  | Block.micro (some _) => true
  | _ => false

/-! ### Concrete instantiation used by the witnesses -/

/-- A concrete fork proof: both headers at block 10, view 0. -/
def testProof : ForkProof := ⟨⟨10, 0⟩, ⟨10, 0⟩, 1, 2⟩

/-- A second, distinct fork proof at the same position. -/
def testProof2 : ForkProof := ⟨⟨10, 0⟩, ⟨10, 0⟩, 3, 4⟩

/-- A fork proof whose header resolves to slot 5 under `testChain`. -/
def testProofSlot5 : ForkProof := ⟨⟨10, 9⟩, ⟨10, 9⟩, 30, 31⟩

/-- A concrete chain environment: epochs of 16 blocks, head at block 20,
hashes read off the first justification, a proof valid when its epoch is the
current or the previous one, slot 5 for view 9 and slot 0 otherwise, slot 5
already slashed on chain, and all proofs verifying with size 5. -/
def testChain : Chain where
  hashFn := fun fp => fp.justification1
  blockNumber := 20
  epochAt := fun n => n / 16
  isValidAt := fun fp h =>
    decide (fp.header1.block_number / 16 = h / 16 ∨ fp.header1.block_number / 16 + 1 = h / 16)
  getSlotAt := fun _ vn => if vn = 9 then some (7, 5) else some (7, 0)
  slashedSetForEpoch := fun _ => some [5]
  verifyProof := fun _ _ => Except.ok ()
  serializedSize := fun _ => 5

/-- The empty pool (`ForkProofPool::new`). -/
def emptyPool : ForkProofPool := ⟨[], []⟩

/-- The pool after inserting `testProof` into the empty pool. -/
def testPool1 : ForkProofPool := ⟨[(1, testProof, 0)], [0]⟩

/-! ## Signed-message envelope (blockchain-albatross/tests/signed.rs)

The envelope implementation (`block_albatross::signed`) is not among the
given sources; only its replay test is. The definitions below are modelled
from the spec, §4.1 and §6. -/

/-- A 32-byte Blake2b digest, as its byte list. -/
abbrev BlockHash := List Nat

/-- `PbftPrepareMessage`: wraps a block hash (§3). -/
structure PbftPrepareMessage where
  block_hash : BlockHash
deriving DecidableEq

/-- `PbftCommitMessage`: wraps a block hash, structurally identical to the
prepare message (§3). -/
structure PbftCommitMessage where
  block_hash : BlockHash
deriving DecidableEq

/-- Modelled from the spec: the BLS scheme is an external interface (§6).
It is idealized as recording the signing secret key and the exact signed
bytes; verification checks the key correspondence and byte equality and
returns a boolean, never aborting. -/
structure BlsSignature where
  signerSecret : Nat
  signedBytes : List Nat
deriving DecidableEq

/-- Modelled from the spec: `secret_key.sign(bytes)` (§6). -/
def blsSign (secretKey : Nat) (bytes : List Nat) : BlsSignature := ⟨secretKey, bytes⟩

/-- Modelled from the spec: the public key of a BLS secret key, idealized as
the identity correspondence. -/
def publicKeyOf (secretKey : Nat) : Nat := secretKey

/-- Modelled from the spec: `public_key.verify(signature, bytes) → bool` (§6). -/
def blsVerify (sig : BlsSignature) (publicKey : Nat) (bytes : List Nat) : Bool :=
  decide (publicKeyOf sig.signerSecret = publicKey ∧ sig.signedBytes = bytes)

/-- Modelled from the spec: the domain-separation byte of ViewChange (§6). -/
def viewChangeTag : Nat := 1

/-- Modelled from the spec: the domain-separation byte of PbftPrepare (§6). -/
def pbftPrepareTag : Nat := 2

/-- Modelled from the spec: the domain-separation byte of PbftCommit (§6). -/
def pbftCommitTag : Nat := 3

/-- Modelled from the spec: the signed byte string of §4.1 — the message
kind's domain-separation byte followed by the canonical serialization. -/
def signedMessageBytes (tagByte : Nat) (payload : List Nat) : List Nat :=
  tagByte :: payload

/-- Canonical serialization of a prepare message: its 32-byte digest. -/
def PbftPrepareMessage.serializeBytes (m : PbftPrepareMessage) : List Nat := m.block_hash

/-- Canonical serialization of a commit message: its 32-byte digest. -/
def PbftCommitMessage.serializeBytes (m : PbftCommitMessage) : List Nat := m.block_hash

/-- Modelled from the spec: `sign(M, secret_key)` of §4.1, over the
domain-separated bytes of the prepare kind. -/
def PbftPrepareMessage.sign (m : PbftPrepareMessage) (secretKey : Nat) : BlsSignature :=
  blsSign secretKey (signedMessageBytes pbftPrepareTag m.serializeBytes)

/-- `SignedMessage<PbftCommitMessage>` (§3). -/
structure SignedPbftCommitMessage where
  message : PbftCommitMessage
  signer_idx : Nat
  signature : BlsSignature
deriving DecidableEq

/-- Modelled from the spec: `SignedMessage::verify` of §4.1 — verify the
carried signature over the commit kind's domain-separated bytes. -/
def SignedPbftCommitMessage.verify (sm : SignedPbftCommitMessage) (publicKey : Nat) : Bool :=
  blsVerify sm.signature publicKey (signedMessageBytes pbftCommitTag sm.message.serializeBytes)

/-! ## Peer-address records (src/network/address/peer_address.rs)

Byte streams are `List Nat` with every element below 256. Integers are
written big-endian and fixed-width per the beserial conventions (§6). -/

/-- Fixed-width big-endian bytes of a natural number (`w` bytes, most
significant first). -/
def natToBytesBE : Nat → Nat → List Nat
  | 0, _ => []
  | w + 1, n => natToBytesBE w (n / 256) ++ [n % 256]

/-- Big-endian value of a byte list. -/
def bytesToNatBE (l : List Nat) : Nat := l.foldl (fun acc b => acc * 256 + b) 0

/-- Read a fixed-width big-endian integer from the stream. -/
def readBytesBE (w : Nat) (l : List Nat) : Option (Nat × List Nat) :=
  if w ≤ l.length then some (bytesToNatBE (l.take w), l.drop w) else none

/-- `SerializeWithLength::serialize::<u16>` of a byte string: a two-byte
big-endian length followed by the bytes. -/
def writeVec16 (h : List Nat) : List Nat := natToBytesBE 2 h.length ++ h

/-- `DeserializeWithLength::deserialize::<u16>`. -/
def readVec16 (l : List Nat) : Option (List Nat × List Nat) :=
  match readBytesBE 2 l with
  | some (len, rest) =>
      if len ≤ rest.length then some (rest.take len, rest.drop len) else none
  | none => none

/-- `network::Protocol`. Modelled from the spec: the enum itself is not
among the given sources; per §6 a tagged union writes a one-byte tag,
distinct per variant. -/
inductive Protocol where
  | Dumb
  | Ws
  | Wss
  | Rtc
deriving DecidableEq

/-- Modelled from the spec: the one-byte tag of each protocol variant. -/
def Protocol.toTag : Protocol → Nat
  | Protocol.Dumb => 0
  | Protocol.Ws => 1
  | Protocol.Wss => 2
  | Protocol.Rtc => 3

/-- Serialization of a `Protocol` value: its tag byte. -/
def Protocol.writeBytes (p : Protocol) : List Nat := [p.toTag]

/-- Deserialization of a `Protocol` value. -/
def readProtocol : List Nat → Option (Protocol × List Nat)
  | 0 :: rest => some (Protocol.Dumb, rest)
  | 1 :: rest => some (Protocol.Ws, rest)
  | 2 :: rest => some (Protocol.Wss, rest)
  | 3 :: rest => some (Protocol.Rtc, rest)
  | _ => none

/-- An encoder/decoder pair for an external leaf type (`NetAddress`,
`PublicKey`, `Signature` are external collaborators per §1). -/
structure Codec (α : Type) where
  enc : α → List Nat
  dec : List Nat → Option (α × List Nat)

/-- A lawful codec decodes exactly what it encoded and leaves the rest of
the stream untouched. -/
def Codec.Lawful {α : Type} (c : Codec α) : Prop :=
  ∀ x rest, c.dec (c.enc x ++ rest) = some (x, rest)

/-- `PeerAddressType` (peer_address.rs, lines 8-13); hosts are UTF-8 byte
strings. -/
inductive PeerAddressType where
  | Dumb
  | Ws (host : List Nat) (port : Nat)
  | Wss (host : List Nat) (port : Nat)
  | Rtc
deriving DecidableEq

/-- `PeerAddressType::get_protocol` (lines 16-23). -/
def PeerAddressType.get_protocol : PeerAddressType → Protocol
  | PeerAddressType.Dumb => Protocol.Dumb
  | PeerAddressType.Ws _ _ => Protocol.Ws
  | PeerAddressType.Wss _ _ => Protocol.Wss
  | PeerAddressType.Rtc => Protocol.Rtc

/-- `PeerAddress` (lines 26-34), generic over the external leaf types for
the network address, public key and signature. -/
structure PeerAddress (N P S : Type) where
  ty : PeerAddressType
  services : Nat
  timestamp : Nat
  net_address : N
  public_key : P
  distance : Nat
  signature : S
deriving DecidableEq

/-- `impl Serialize for PeerAddress` (lines 36-53): protocol tag, services,
timestamp, net address, public key, distance, signature, then the host and
port tail for the Ws and Wss variants. -/
def PeerAddress.serializeBytes {N P S : Type} (cN : Codec N) (cP : Codec P) (cS : Codec S)
    (a : PeerAddress N P S) : List Nat :=
  (a.ty.get_protocol).writeBytes
  ++ natToBytesBE 4 a.services
  ++ natToBytesBE 8 a.timestamp
  ++ cN.enc a.net_address
  ++ cP.enc a.public_key
  ++ natToBytesBE 1 a.distance
  ++ cS.enc a.signature
  ++ (match a.ty with
      | PeerAddressType.Ws host port => writeVec16 host ++ natToBytesBE 2 port
      | PeerAddressType.Wss host port => writeVec16 host ++ natToBytesBE 2 port
      | _ => [])

/-- `impl Deserialize for PeerAddress` (lines 74-91): read the fixed part,
then rebuild the variant from the protocol tag, reading the host and port
tail for Ws and Wss. -/
def PeerAddress.deserializeBytes {N P S : Type} (cN : Codec N) (cP : Codec P) (cS : Codec S)
    (l : List Nat) : Option (PeerAddress N P S × List Nat) :=
  match readProtocol l with
  | none => none
  | some (protocol, l) =>
  match readBytesBE 4 l with
  | none => none
  | some (services, l) =>
  match readBytesBE 8 l with
  | none => none
  | some (timestamp, l) =>
  match cN.dec l with
  | none => none
  | some (net_address, l) =>
  match cP.dec l with
  | none => none
  | some (public_key, l) =>
  match readBytesBE 1 l with
  | none => none
  | some (distance, l) =>
  match cS.dec l with
  | none => none
  | some (signature, l) =>
  match protocol with
  | Protocol.Dumb =>
      some (⟨PeerAddressType.Dumb, services, timestamp, net_address, public_key,
             distance, signature⟩, l)
  | Protocol.Ws =>
      match readVec16 l with
      | none => none
      | some (host, l) =>
      match readBytesBE 2 l with
      | none => none
      | some (port, l) =>
          some (⟨PeerAddressType.Ws host port, services, timestamp, net_address,
                 public_key, distance, signature⟩, l)
  | Protocol.Wss =>
      match readVec16 l with
      | none => none
      | some (host, l) =>
      match readBytesBE 2 l with
      | none => none
      | some (port, l) =>
          some (⟨PeerAddressType.Wss host port, services, timestamp, net_address,
                 public_key, distance, signature⟩, l)
  | Protocol.Rtc =>
      some (⟨PeerAddressType.Rtc, services, timestamp, net_address, public_key,
             distance, signature⟩, l)

/-- `PeerAddress::get_signature_data` (lines 108-122), as the same sequence
of vector appends the Rust code performs. -/
def PeerAddress.get_signature_data {N P S : Type} (a : PeerAddress N P S) : List Nat :=
  let res := natToBytesBE 1 (a.ty.get_protocol).toTag
  let res := res ++ natToBytesBE 4 a.services
  let res := res ++ natToBytesBE 8 a.timestamp
  match a.ty with
  | PeerAddressType.Ws host port => res ++ writeVec16 host ++ natToBytesBE 2 port
  | PeerAddressType.Wss host port => res ++ writeVec16 host ++ natToBytesBE 2 port
  | _ => res

/-- The wire-format field bounds of a peer address: `services : u32`,
`timestamp : u64`, `distance : u8`, and for Ws/Wss a host of u16-prefixed
length and a `port : u16`. -/
def PeerAddress.WF {N P S : Type} (a : PeerAddress N P S) : Prop :=
  a.services < 2 ^ 32 ∧ a.timestamp < 2 ^ 64 ∧ a.distance < 2 ^ 8 ∧
  (match a.ty with
   | PeerAddressType.Ws host port => host.length < 2 ^ 16 ∧ port < 2 ^ 16
   | PeerAddressType.Wss host port => host.length < 2 ^ 16 ∧ port < 2 ^ 16
   | _ => True)

/-- A concrete lawful leaf codec used by the witnesses: one byte, as is. -/
def byteCodec : Codec Nat where
  enc := fun n => [n]
  dec := fun l =>
    match l with
    | b :: rest => some (b, rest)
    | [] => none

/-- A concrete peer address over single-byte leaf fields. -/
def testAddress : PeerAddress Nat Nat Nat :=
  ⟨PeerAddressType.Ws [104, 105] 8443, 7, 123456, 9, 11, 2, 13⟩

/-- A second concrete address, sharing the signed fields of `testAddress`
but differing in its net address, distance and signature. -/
def testAddressMeta : PeerAddress Nat Nat Nat :=
  ⟨PeerAddressType.Ws [104, 105] 8443, 7, 123456, 90, 11, 5, 77⟩

/-! ## Aggregation-layer configuration (handel/src/config.rs) -/

/-- `std::time::Duration`, at the millisecond granularity the config uses. -/
structure Duration where
  millis : Nat
deriving DecidableEq

/-- `Duration::from_millis`. -/
def Duration.from_millis (n : Nat) : Duration := ⟨n⟩

/-- `handel::Config` (config.rs, lines 5-19). -/
structure Config where
  update_count : Nat
  update_interval : Duration
  timeout : Duration
  peer_count : Nat
deriving DecidableEq

/-- `parse_var` (config.rs, lines 21-24): read the environment variable and
keep it only when it parses. The process environment and the `FromStr`
instances are external, passed as functions. -/
def parse_var (envVar : String → Option String) (parse : String → Option Nat)
    (key : String) : Option Nat :=
  (envVar key).bind parse

/-- `impl Default for Config` (config.rs, lines 26-37). -/
def Config.defaultFromEnv (envVar : String → Option String)
    (parseUsize parseU64 : String → Option Nat) : Config where
  update_count := (parse_var envVar parseUsize ("HANDEL_UPDATE_COUNT")).getD 1
  update_interval := Duration.from_millis
    ((parse_var envVar parseU64 ("HANDEL_UPDATE_INTERVAL")).getD 100)
  timeout := Duration.from_millis
    ((parse_var envVar parseU64 ("HANDEL_TIMEOUT")).getD 500)
  peer_count := (parse_var envVar parseUsize ("HANDEL_PEER_COUNT")).getD 10

/-! ### Lemmas about the association-list operations -/

theorem mapContainsKey_mapInsert_self (m : List (Nat × ForkProof × Nat)) (k : Nat)
    (v : ForkProof × Nat) : mapContainsKey (mapInsert m k v) k = true := by
  induction m with
  | nil => simp [mapInsert, mapContainsKey]
  | cons e rest ih =>
      by_cases h : e.1 = k
      · simp [mapInsert, h, mapContainsKey]
      · simp [mapInsert, h, mapContainsKey, ih]

theorem mapContainsKey_mapInsert_other (m : List (Nat × ForkProof × Nat)) (k k' : Nat)
    (v : ForkProof × Nat) (hne : k ≠ k') :
    mapContainsKey (mapInsert m k v) k' = mapContainsKey m k' := by
  induction m with
  | nil => simp [mapInsert, mapContainsKey, hne]
  | cons e rest ih =>
      by_cases h : e.1 = k
      · simp [mapInsert, h, mapContainsKey, hne]
      · simp [mapInsert, h, mapContainsKey, ih]

theorem mapLookup_mapInsert (m : List (Nat × ForkProof × Nat)) (k k' : Nat)
    (v : ForkProof × Nat) :
    mapLookup (mapInsert m k v) k' = if k = k' then some v else mapLookup m k' := by
  induction m with
  | nil => simp [mapInsert, mapLookup]
  | cons e rest ih =>
      by_cases h : e.1 = k
      · by_cases h' : k = k'
        · simp [mapInsert, h, mapLookup, h']
        · simp [mapInsert, h, mapLookup, h', h ▸ h']
      · by_cases h' : e.1 = k'
        · have h1 : ¬ k = k' := fun hk => h (hk ▸ h')
          have h2 : ¬ k' = k := fun hk => h1 hk.symm
          simp [mapInsert, h, mapLookup, h', h1, h2]
        · simp [mapInsert, h, mapLookup, h', ih]

theorem mapLookup_mapRemove (m : List (Nat × ForkProof × Nat)) (k k' : Nat) :
    mapLookup (mapRemove m k) k' = if k = k' then none else mapLookup m k' := by
  induction m with
  | nil => simp [mapRemove, mapLookup]
  | cons e rest ih =>
      by_cases h : e.1 = k
      · by_cases h' : k = k'
        · subst h'
          simpa [mapRemove, h] using ih
        · simp [mapRemove, h, mapLookup, ih, h', h ▸ h']
      · by_cases h' : e.1 = k'
        · have h1 : ¬ k = k' := fun hk => h (hk ▸ h')
          have h2 : ¬ k' = k := fun hk => h1 hk.symm
          simp [mapRemove, h, mapLookup, h', h1, h2]
        · simp [mapRemove, h, mapLookup, h', ih]

theorem mapContainsKey_eq_isSome_mapLookup (m : List (Nat × ForkProof × Nat)) (k : Nat) :
    mapContainsKey m k = (mapLookup m k).isSome := by
  induction m with
  | nil => simp [mapContainsKey, mapLookup]
  | cons e rest ih =>
      by_cases h : e.1 = k
      · simp [mapContainsKey, mapLookup, h]
      · simp [mapContainsKey, mapLookup, h, ih]

/-! ### Dissecting `ForkProofPool::insert` -/

theorem insert_contained (chain : Chain) (q : ForkProofPool) (p : ForkProof)
    (h : mapContainsKey q.fork_proofs (chain.hashFn p) = true) :
    ForkProofPool.insert chain q p = (Except.ok false, q) := by
  simp only [ForkProofPool.insert, h, if_true]

theorem insert_true_dest (chain : Chain) (pool pool' : ForkProofPool) (p : ForkProof)
    (h : ForkProofPool.insert chain pool p = (Except.ok true, pool')) :
    ∃ sk s, chain.getSlotAt p.header1.block_number p.header1.view_number = some (sk, s)
      ∧ pool' = { fork_proofs := mapInsert pool.fork_proofs (chain.hashFn p) (p, s),
                  fork_proof_slots := pool.fork_proof_slots ++ [s] }
      ∧ s ∉ pool.fork_proof_slots
      ∧ mapContainsKey pool.fork_proofs (chain.hashFn p) = false := by
  have hc : mapContainsKey pool.fork_proofs (chain.hashFn p) = false := by
    by_contra hcc
    rw [Bool.not_eq_false] at hcc
    rw [insert_contained chain pool p hcc] at h
    simp at h
  simp only [ForkProofPool.insert, hc, Bool.false_eq_true, if_false] at h
  split at h
  · simp at h
  · split at h
    · simp at h
    · case _ slotPair slotKey slotNumber heq =>
      split at h
      · simp at h
      · case _ slashedSet heqSlash =>
        split at h
        · simp at h
        · case _ hnotSlashed =>
          split at h
          · simp at h
          · rw [Prod.mk.injEq] at h
            obtain ⟨-, hpool⟩ := h
            have hnotin : slotNumber ∉ pool.fork_proof_slots := by
              intro hmem
              exact hnotSlashed (by simp [hmem])
            refine ⟨slotKey, slotNumber, heq, ?_, hnotin, hc⟩
            rw [← hpool]
            simp [setInsert, hnotin]

/-- C2: after a first `insert(p)` that returns `Ok(true)`, an immediately
following `insert(p)` on the resulting pool returns `Ok(false)` and leaves
the pool (both `fork_proofs` and `fork_proof_slots`) unchanged. -/
theorem c2_insert_idempotent (chain : Chain) (pool pool' : ForkProofPool) (p : ForkProof)
    (h : ForkProofPool.insert chain pool p = (Except.ok true, pool')) :
    ForkProofPool.insert chain pool' p = (Except.ok false, pool') := by
  obtain ⟨sk, s, _, hpool, -, -⟩ := insert_true_dest chain pool pool' p h
  apply insert_contained
  rw [hpool]
  exact mapContainsKey_mapInsert_self pool.fork_proofs (chain.hashFn p) (p, s)

/-- Witness for C2 at a concrete chain, pool and proof. -/
theorem c2_witness :
    ForkProofPool.insert testChain emptyPool testProof = (Except.ok true, testPool1)
    ∧ ForkProofPool.insert testChain testPool1 testProof = (Except.ok false, testPool1) :=
  ⟨rfl, c2_insert_idempotent testChain emptyPool testPool1 testProof rfl⟩

/-- C10: a block that is not a micro block, or whose extrinsics field is
`None`, leaves both `fork_proofs` and `fork_proof_slots` unchanged under
`apply_block` and `revert_block`. -/
theorem c10_apply_revert_frame (chain : Chain) (pool : ForkProofPool) (b : Block)
    (h : b.hasForkProofExtrinsics = false) :
    ForkProofPool.apply_block chain pool b = pool
    ∧ ForkProofPool.revert_block chain pool b = pool := by
  cases b with
  | micro extrinsics =>
      cases extrinsics with
      | none => exact ⟨rfl, rfl⟩
      | some e => simp [Block.hasForkProofExtrinsics] at h
  | macroBlock => exact ⟨rfl, rfl⟩

/-- Witness for C10 at a concrete non-micro block. -/
theorem c10_witness :
    ForkProofPool.apply_block testChain testPool1 Block.macroBlock = testPool1
    ∧ ForkProofPool.revert_block testChain testPool1 Block.macroBlock = testPool1 :=
  c10_apply_revert_frame testChain testPool1 Block.macroBlock rfl

/-- C1 (code bug): housekeeping prunes an expired proof from `fork_proofs`
but never removes its slot from `fork_proof_slots`. Starting from the empty
pool, a single accepted `insert` yields a state satisfying the §3 invariant;
one `housekeeping` call at a later height then produces a pool with an empty
`fork_proofs` map whose `fork_proof_slots` still holds slot 0, violating the
invariant the claim asserts for all reachable states. -/
theorem c1_housekeeping_breaks_sync :
    ForkProofPool.insert testChain emptyPool testProof = (Except.ok true, testPool1)
    ∧ ForkProofPool.SlotsInSync testPool1
    ∧ ForkProofPool.housekeeping testChain testPool1 1000 [] []
        = ({ fork_proofs := [], fork_proof_slots := [0] } : ForkProofPool)
    ∧ ¬ ForkProofPool.SlotsInSync
        ({ fork_proofs := [], fork_proof_slots := [0] } : ForkProofPool) := by
  refine ⟨rfl, ⟨?_, ?_⟩, rfl, ?_⟩
  · intro n
    simp [testPool1, eq_comm]
  · intro e1 he1 e2 he2 _
    simp [testPool1] at he1 he2
    rw [he1, he2]
  · intro hsync
    have h0 := (hsync.1 0).mp (by simp)
    simp at h0

/-- C3: a fork proof distinct in hash from an accepted one but resolving to
the same slot number is rejected with `SlotAlreadySlashed` and leaves the
pool unchanged; the same error results whenever the chain's slashed set for
the proof's epoch already contains the slot number. -/
theorem c3_slot_collision (chain : Chain) (pool pool1 : ForkProofPool)
    (p1 p2 : ForkProof) (slotKey2 s : Nat) (ss : BitSet)
    (hne : chain.hashFn p1 ≠ chain.hashFn p2)
    (h1 : ForkProofPool.insert chain pool p1 = (Except.ok true, pool1))
    (h1slot : ∃ sk1, chain.getSlotAt p1.header1.block_number p1.header1.view_number
        = some (sk1, s))
    (h2new : mapContainsKey pool.fork_proofs (chain.hashFn p2) = false)
    (h2valid : chain.isValidAt p2 chain.blockNumber = true)
    (h2slot : chain.getSlotAt p2.header1.block_number p2.header1.view_number
        = some (slotKey2, s))
    (h2slashed : chain.slashedSetForEpoch (chain.epochAt p2.header1.block_number) = some ss) :
    ForkProofPool.insert chain pool1 p2
      = (Except.error ForkProofPoolError.SlotAlreadySlashed, pool1)
    ∧ ∀ (q : ForkProofPool) (p : ForkProof) (sk s' : Nat) (ss' : BitSet),
        mapContainsKey q.fork_proofs (chain.hashFn p) = false →
        chain.isValidAt p chain.blockNumber = true →
        chain.getSlotAt p.header1.block_number p.header1.view_number = some (sk, s') →
        chain.slashedSetForEpoch (chain.epochAt p.header1.block_number) = some ss' →
        ss'.containsBit s' = true →
        ForkProofPool.insert chain q p
          = (Except.error ForkProofPoolError.SlotAlreadySlashed, q) := by
  constructor
  · obtain ⟨sk1, s1, hslot1, hpool1, hnotin1, -⟩ := insert_true_dest chain pool pool1 p1 h1
    obtain ⟨sk1', hslot1'⟩ := h1slot
    have hs1 : s1 = s := by
      rw [hslot1'] at hslot1
      exact ((Prod.mk.injEq _ _ _ _ ▸ Option.some.injEq _ _ ▸ hslot1).2).symm
    subst hs1
    have hcontains : mapContainsKey pool1.fork_proofs (chain.hashFn p2) = false := by
      rw [hpool1]
      rw [mapContainsKey_mapInsert_other pool.fork_proofs _ _ _ hne]
      exact h2new
    have hmem : s1 ∈ pool1.fork_proof_slots := by
      rw [hpool1]
      simp
    simp [ForkProofPool.insert, hcontains, h2valid, h2slot, h2slashed, hmem]
  · intro q p sk s' ss' hq hvalid hslot hslashed hbit
    simp [ForkProofPool.insert, hq, hvalid, hslot, hslashed, hbit]

/-- Witness for C3: `testProof2` collides on slot 0 with the already
inserted `testProof`, and `testProofSlot5` hits the chain's slashed bit 5. -/
theorem c3_witness :
    ForkProofPool.insert testChain testPool1 testProof2
      = (Except.error ForkProofPoolError.SlotAlreadySlashed, testPool1)
    ∧ ForkProofPool.insert testChain emptyPool testProofSlot5
      = (Except.error ForkProofPoolError.SlotAlreadySlashed, emptyPool) := by
  have h := c3_slot_collision testChain emptyPool testPool1 testProof testProof2 7 0 [5]
    (by decide) rfl ⟨7, rfl⟩ rfl rfl rfl rfl
  exact ⟨h.1, h.2 emptyPool testProofSlot5 7 5 [5] rfl rfl rfl rfl rfl⟩

/-! ### The greedy block filler -/

theorem getForkProofsGo_spec (chain : Chain) (maxSize : Nat) :
    ∀ (l : List (Nat × ForkProof × Nat)) (acc : Nat),
      (∀ p ∈ getForkProofsGo chain maxSize l acc, ∃ e ∈ l, e.2.1 = p)
      ∧ (∀ p ∈ getForkProofsGo chain maxSize l acc, acc + chain.serializedSize p < maxSize)
      ∧ (getForkProofsGo chain maxSize l acc = []
         ∨ acc + ((getForkProofsGo chain maxSize l acc).map chain.serializedSize).sum
             < maxSize) := by
  intro l
  induction l with
  | nil => intro acc; simp [getForkProofsGo]
  | cons e rest ih =>
      intro acc
      by_cases hcond : acc + chain.serializedSize e.2.1 < maxSize
      · obtain ⟨ih1, ih2, ih3⟩ := ih (acc + chain.serializedSize e.2.1)
        refine ⟨?_, ?_, ?_⟩
        · intro p hp
          rw [getForkProofsGo, if_pos hcond] at hp
          rcases List.mem_cons.mp hp with hp | hp
          · exact ⟨e, List.mem_cons_self e rest, hp.symm⟩
          · obtain ⟨e', he', hpe⟩ := ih1 p hp
            exact ⟨e', List.mem_cons_of_mem e he', hpe⟩
        · intro p hp
          rw [getForkProofsGo, if_pos hcond] at hp
          rcases List.mem_cons.mp hp with hp | hp
          · rw [hp]; exact hcond
          · have := ih2 p hp
            omega
        · right
          rw [getForkProofsGo, if_pos hcond]
          rcases ih3 with h3 | h3
          · rw [h3]
            simpa using hcond
          · simp only [List.map_cons, List.sum_cons]
            omega
      · obtain ⟨ih1, ih2, ih3⟩ := ih acc
        refine ⟨?_, ?_, ?_⟩
        · intro p hp
          rw [getForkProofsGo, if_neg hcond] at hp
          obtain ⟨e', he', hpe⟩ := ih1 p hp
          exact ⟨e', List.mem_cons_of_mem e he', hpe⟩
        · intro p hp
          rw [getForkProofsGo, if_neg hcond] at hp
          exact ih2 p hp
        · rw [getForkProofsGo, if_neg hcond]
          exact ih3

/-- C5: every proof returned by `get_fork_proofs_for_block(max_size)` is
retained in the pool, no single returned proof's serialized size reaches the
budget, and the total serialized size of the returned proofs stays strictly
below `max_size` whenever any proof is returned. -/
theorem c5_get_fork_proofs_spec (chain : Chain) (pool : ForkProofPool) (maxSize : Nat) :
    (∀ p ∈ ForkProofPool.get_fork_proofs_for_block chain pool maxSize,
        ∃ e ∈ pool.fork_proofs, e.2.1 = p)
    ∧ (∀ p ∈ ForkProofPool.get_fork_proofs_for_block chain pool maxSize,
        chain.serializedSize p < maxSize)
    ∧ (ForkProofPool.get_fork_proofs_for_block chain pool maxSize = []
       ∨ ((ForkProofPool.get_fork_proofs_for_block chain pool maxSize).map
            chain.serializedSize).sum < maxSize) := by
  simp only [ForkProofPool.get_fork_proofs_for_block]
  obtain ⟨h1, h2, h3⟩ := getForkProofsGo_spec chain maxSize pool.fork_proofs 0
  refine ⟨h1, ?_, ?_⟩
  · intro p hp
    have := h2 p hp
    omega
  · rcases h3 with h3 | h3
    · exact Or.inl h3
    · exact Or.inr (by omega)

/-- Witness for C5: the singleton pool with one proof of size 5 and a budget
of 6 returns that proof, which fits the budget. -/
theorem c5_witness :
    testChain.serializedSize testProof < 6
    ∧ (∃ e ∈ testPool1.fork_proofs, e.2.1 = testProof) := by
  obtain ⟨h1, h2, -⟩ := c5_get_fork_proofs_spec testChain testPool1 6
  have hmem : testProof ∈ ForkProofPool.get_fork_proofs_for_block testChain testPool1 6 := by
    decide
  exact ⟨h2 testProof hmem, h1 testProof hmem⟩

/-! ### Apply / revert round trip -/

theorem lookup_applyForkProof (chain : Chain) (pool : ForkProofPool) (p : ForkProof) (k : Nat) :
    mapLookup (ForkProofPool.applyForkProof chain pool p).fork_proofs k
      = if chain.hashFn p = k then none else mapLookup pool.fork_proofs k := by
  unfold ForkProofPool.applyForkProof
  cases hl : mapLookup pool.fork_proofs (chain.hashFn p) with
  | none =>
      by_cases hk : chain.hashFn p = k
      · simp [← hk, hl]
      · simp [hk]
  | some v => simp [mapLookup_mapRemove]

theorem lookup_applyGo (chain : Chain) :
    ∀ (l : List ForkProof) (pool : ForkProofPool) (k : Nat),
      mapLookup (l.foldl (ForkProofPool.applyForkProof chain) pool).fork_proofs k
        = if l.any (fun p => decide (chain.hashFn p = k)) then none
          else mapLookup pool.fork_proofs k := by
  intro l
  induction l with
  | nil => intro pool k; simp
  | cons p rest ih =>
      intro pool k
      rw [List.foldl_cons, ih]
      by_cases hany : rest.any (fun p => decide (chain.hashFn p = k)) = true
      · simp [hany]
      · by_cases hk : chain.hashFn p = k
        · simp [hany, hk, lookup_applyForkProof]
        · simp [hany, hk, lookup_applyForkProof]

theorem lookup_revertGo (chain : Chain) (M0 : List (Nat × ForkProof × Nat)) :
    ∀ (l : List ForkProof) (q : ForkProofPool) (k : Nat),
      (∀ p ∈ l, ∃ sk s,
          chain.getSlotAt p.header1.block_number p.header1.view_number = some (sk, s)
          ∧ mapLookup M0 (chain.hashFn p) = some (p, s)) →
      mapLookup (l.foldl (ForkProofPool.revertForkProof chain) q).fork_proofs k
        = if l.any (fun p => decide (chain.hashFn p = k)) then mapLookup M0 k
          else mapLookup q.fork_proofs k := by
  intro l
  induction l with
  | nil => intro q k _; simp
  | cons p rest ih =>
      intro q k hall
      obtain ⟨sk, s, hslot, hM0⟩ := hall p (List.mem_cons_self p rest)
      have hrest : ∀ p' ∈ rest, ∃ sk' s',
          chain.getSlotAt p'.header1.block_number p'.header1.view_number = some (sk', s')
          ∧ mapLookup M0 (chain.hashFn p') = some (p', s') :=
        fun p' hp' => hall p' (List.mem_cons_of_mem p hp')
      rw [List.foldl_cons, ih _ _ hrest]
      have hstep : (ForkProofPool.revertForkProof chain q p).fork_proofs
          = mapInsert q.fork_proofs (chain.hashFn p) (p, s) := by
        unfold ForkProofPool.revertForkProof
        rw [hslot]
      by_cases hany : rest.any (fun p => decide (chain.hashFn p = k)) = true
      · simp [hany]
      · by_cases hk : chain.hashFn p = k
        · rw [hstep, mapLookup_mapInsert, if_pos hk, ← hk, hM0]
          simp [hany, hk]
        · rw [hstep, mapLookup_mapInsert, if_neg hk]
          simp [hany, hk]

/-- C6: applying a micro block with extrinsics and then reverting it
restores the `fork_proofs` map, provided every fork proof embedded in the
block still resolves under `get_slot_at` to the slot number stored for it in
the pool. Equality is extensional in the map's keys, matching the hash map
of the source. -/
theorem c6_apply_revert_restores (chain : Chain) (pool : ForkProofPool)
    (extrinsics : MicroExtrinsics)
    (h : ∀ p ∈ extrinsics.fork_proofs, ∃ sk s,
        chain.getSlotAt p.header1.block_number p.header1.view_number = some (sk, s)
        ∧ mapLookup pool.fork_proofs (chain.hashFn p) = some (p, s)) :
    ∀ k, mapLookup (ForkProofPool.revert_block chain
          (ForkProofPool.apply_block chain pool (Block.micro (some extrinsics)))
          (Block.micro (some extrinsics))).fork_proofs k
        = mapLookup pool.fork_proofs k := by
  intro k
  simp only [ForkProofPool.apply_block, ForkProofPool.revert_block]
  rw [lookup_revertGo chain pool.fork_proofs _ _ k h]
  by_cases hany : extrinsics.fork_proofs.any (fun p => decide (chain.hashFn p = k)) = true
  · simp [hany]
  · rw [if_neg hany, lookup_applyGo, if_neg hany]

/-- Witness for C6 at the singleton pool and the block embedding its proof. -/
theorem c6_witness :
    mapLookup (ForkProofPool.revert_block testChain
        (ForkProofPool.apply_block testChain testPool1
          (Block.micro (some ⟨[testProof]⟩)))
        (Block.micro (some ⟨[testProof]⟩))).fork_proofs 1
      = mapLookup testPool1.fork_proofs 1 := by
  refine c6_apply_revert_restores testChain testPool1 ⟨[testProof]⟩ ?_ 1
  intro p hp
  have hp' : p = testProof := by simpa using hp
  subst hp'
  exact ⟨7, 0, rfl, rfl⟩

/-! ### Domain separation of signed messages -/

/-- C4: a signature produced over a prepare message never verifies inside a
commit envelope carrying the same block hash, against the signer's own
public key; in general a signature over one message kind's
domain-separated bytes never verifies against another kind's bytes, even
for byte-identical payloads, and verification is a total boolean. -/
theorem c4_domain_separation :
    (∀ (secretKey : Nat) (blockHash : BlockHash),
      (SignedPbftCommitMessage.mk ⟨blockHash⟩ 0
          (PbftPrepareMessage.sign ⟨blockHash⟩ secretKey)).verify (publicKeyOf secretKey)
        = false)
    ∧ ∀ (t1 t2 : Nat) (payload : List Nat) (sk pk : Nat), t1 ≠ t2 →
        blsVerify (blsSign sk (signedMessageBytes t1 payload)) pk
          (signedMessageBytes t2 payload) = false := by
  constructor
  · intro secretKey blockHash
    simp [SignedPbftCommitMessage.verify, PbftPrepareMessage.sign, blsVerify, blsSign,
      signedMessageBytes, PbftCommitMessage.serializeBytes, PbftPrepareMessage.serializeBytes,
      pbftPrepareTag, pbftCommitTag]
  · intro t1 t2 payload sk pk hne
    simp [blsVerify, blsSign, signedMessageBytes, hne]

/-- Witness for C4 at a concrete key, block hash and tag pair. -/
theorem c4_witness :
    (SignedPbftCommitMessage.mk ⟨[9, 8]⟩ 0
        (PbftPrepareMessage.sign ⟨[9, 8]⟩ 5)).verify (publicKeyOf 5) = false
    ∧ blsVerify (blsSign 5 (signedMessageBytes viewChangeTag [4])) (publicKeyOf 5)
        (signedMessageBytes pbftPrepareTag [4]) = false :=
  ⟨c4_domain_separation.1 5 [9, 8],
   c4_domain_separation.2 viewChangeTag pbftPrepareTag [4] 5 (publicKeyOf 5) (by decide)⟩

/-! ### Byte-level readers and writers -/

theorem length_natToBytesBE (w n : Nat) : (natToBytesBE w n).length = w := by
  induction w generalizing n with
  | zero => rfl
  | succ w ih => simp [natToBytesBE, ih]

theorem bytesToNatBE_append_single (xs : List Nat) (y : Nat) :
    bytesToNatBE (xs ++ [y]) = bytesToNatBE xs * 256 + y := by
  simp [bytesToNatBE, List.foldl_append]

theorem bytesToNatBE_natToBytesBE (w n : Nat) :
    bytesToNatBE (natToBytesBE w n) = n % 256 ^ w := by
  induction w generalizing n with
  | zero => simp [natToBytesBE, bytesToNatBE, Nat.mod_one]
  | succ w ih =>
      rw [natToBytesBE, bytesToNatBE_append_single, ih]
      rw [pow_succ, mul_comm (256 ^ w) 256, Nat.mod_mul]
      ring

theorem readBytesBE_append (w n : Nat) (rest : List Nat) (h : n < 256 ^ w) :
    readBytesBE w (natToBytesBE w n ++ rest) = some (n, rest) := by
  have hval : bytesToNatBE (natToBytesBE w n) = n := by
    rw [bytesToNatBE_natToBytesBE, Nat.mod_eq_of_lt h]
  have hlen : (natToBytesBE w n).length = w := length_natToBytesBE w n
  generalize hxs : natToBytesBE w n = xs at hval hlen
  subst hlen
  unfold readBytesBE
  rw [if_pos (by simp), List.take_left, List.drop_left, hval]

theorem readVec16_append (h rest : List Nat) (hlen : h.length < 2 ^ 16) :
    readVec16 (writeVec16 h ++ rest) = some (h, rest) := by
  have h2 : h.length < 256 ^ 2 := by
    have : (256 : Nat) ^ 2 = 2 ^ 16 := by norm_num
    rw [this]
    exact hlen
  unfold writeVec16 readVec16
  rw [List.append_assoc, readBytesBE_append 2 h.length _ h2]
  simp [List.take_left, List.drop_left]

theorem readProtocol_append (p : Protocol) (rest : List Nat) :
    readProtocol (p.writeBytes ++ rest) = some (p, rest) := by
  cases p <;> rfl

/-- C7: `deserialize(serialize(x)) == x` for every well-formed PeerAddress,
for any lawful codecs of the external leaf fields (net address, public key,
signature); every field, including the host and port tail of the Ws and Wss
variants, is recovered, and the remainder of the stream is untouched. -/
theorem c7_peer_address_roundtrip {N P S : Type} (cN : Codec N) (cP : Codec P) (cS : Codec S)
    (hN : cN.Lawful) (hP : cP.Lawful) (hS : cS.Lawful)
    (a : PeerAddress N P S) (hwf : a.WF) (rest : List Nat) :
    PeerAddress.deserializeBytes cN cP cS (PeerAddress.serializeBytes cN cP cS a ++ rest)
      = some (a, rest) := by
  obtain ⟨hserv, hts, hdist, hty⟩ := hwf
  obtain ⟨ty, services, timestamp, net_address, public_key, distance, signature⟩ := a
  have h4 : ∀ L, readBytesBE 4 (natToBytesBE 4 services ++ L) = some (services, L) := by
    intro L
    refine readBytesBE_append 4 services L ?_
    have : (256 : Nat) ^ 4 = 2 ^ 32 := by norm_num
    rw [this]
    exact hserv
  have h8 : ∀ L, readBytesBE 8 (natToBytesBE 8 timestamp ++ L) = some (timestamp, L) := by
    intro L
    refine readBytesBE_append 8 timestamp L ?_
    have : (256 : Nat) ^ 8 = 2 ^ 64 := by norm_num
    rw [this]
    exact hts
  have h1 : ∀ L, readBytesBE 1 (natToBytesBE 1 distance ++ L) = some (distance, L) := by
    intro L
    refine readBytesBE_append 1 distance L ?_
    have : (256 : Nat) ^ 1 = 2 ^ 8 := by norm_num
    rw [this]
    exact hdist
  cases ty with
  | Dumb =>
      simp only [PeerAddress.serializeBytes, PeerAddress.deserializeBytes,
        PeerAddressType.get_protocol, List.append_assoc, List.append_nil,
        readProtocol_append, h4, h8, hN net_address, hP public_key, h1, hS signature]
  | Rtc =>
      simp only [PeerAddress.serializeBytes, PeerAddress.deserializeBytes,
        PeerAddressType.get_protocol, List.append_assoc, List.append_nil,
        readProtocol_append, h4, h8, hN net_address, hP public_key, h1, hS signature]
  | Ws host port =>
      obtain ⟨hhost, hport⟩ := hty
      have hp2 : ∀ L, readBytesBE 2 (natToBytesBE 2 port ++ L) = some (port, L) := by
        intro L
        refine readBytesBE_append 2 port L ?_
        have : (256 : Nat) ^ 2 = 2 ^ 16 := by norm_num
        rw [this]
        exact hport
      have hv : ∀ L, readVec16 (writeVec16 host ++ L) = some (host, L) :=
        fun L => readVec16_append host L hhost
      simp only [PeerAddress.serializeBytes, PeerAddress.deserializeBytes,
        PeerAddressType.get_protocol, List.append_assoc,
        readProtocol_append, h4, h8, hN net_address, hP public_key, h1, hS signature,
        hv, hp2]
  | Wss host port =>
      obtain ⟨hhost, hport⟩ := hty
      have hp2 : ∀ L, readBytesBE 2 (natToBytesBE 2 port ++ L) = some (port, L) := by
        intro L
        refine readBytesBE_append 2 port L ?_
        have : (256 : Nat) ^ 2 = 2 ^ 16 := by norm_num
        rw [this]
        exact hport
      have hv : ∀ L, readVec16 (writeVec16 host ++ L) = some (host, L) :=
        fun L => readVec16_append host L hhost
      simp only [PeerAddress.serializeBytes, PeerAddress.deserializeBytes,
        PeerAddressType.get_protocol, List.append_assoc,
        readProtocol_append, h4, h8, hN net_address, hP public_key, h1, hS signature,
        hv, hp2]

theorem byteCodec_lawful : byteCodec.Lawful := by
  intro x rest
  rfl

/-- Witness for C7 at a concrete Ws address over single-byte leaf codecs. -/
theorem c7_witness :
    PeerAddress.deserializeBytes byteCodec byteCodec byteCodec
        (PeerAddress.serializeBytes byteCodec byteCodec byteCodec testAddress ++ [])
      = some (testAddress, []) := by
  refine c7_peer_address_roundtrip byteCodec byteCodec byteCodec byteCodec_lawful
    byteCodec_lawful byteCodec_lawful testAddress ?_ []
  refine ⟨by norm_num [testAddress], by norm_num [testAddress], by norm_num [testAddress], ?_⟩
  simp only [testAddress]
  exact ⟨by norm_num, by norm_num⟩

/-- C8: the signature-covered bytes of a peer address are exactly the
protocol tag byte, the services word, the timestamp word, and — only for
the Ws and Wss variants — the length-prefixed host and the port; hence two
addresses sharing `ty`, `services` and `timestamp` (i.e. differing only in
`net_address`, `distance` or `signature`) have identical signature data. -/
theorem c8_signature_data (N P S : Type) :
    (∀ (a : PeerAddress N P S), a.get_signature_data
        = (a.ty.get_protocol).writeBytes
          ++ natToBytesBE 4 a.services
          ++ natToBytesBE 8 a.timestamp
          ++ (match a.ty with
              | PeerAddressType.Ws host port => writeVec16 host ++ natToBytesBE 2 port
              | PeerAddressType.Wss host port => writeVec16 host ++ natToBytesBE 2 port
              | _ => []))
    ∧ (∀ a b : PeerAddress N P S, a.ty = b.ty → a.services = b.services →
        a.timestamp = b.timestamp → a.get_signature_data = b.get_signature_data) := by
  constructor
  · intro a
    obtain ⟨ty, services, timestamp, net_address, public_key, distance, signature⟩ := a
    cases ty <;>
      simp [PeerAddress.get_signature_data, PeerAddressType.get_protocol,
        Protocol.writeBytes, Protocol.toTag, natToBytesBE]
  · intro a b h1 h2 h3
    obtain ⟨ty, services, timestamp, na, pk, d, sg⟩ := a
    obtain ⟨ty', services', timestamp', na', pk', d', sg'⟩ := b
    simp only at h1 h2 h3
    subst h1; subst h2; subst h3
    rfl

/-- Witness for C8 at two concrete addresses differing only in net address,
distance and signature. -/
theorem c8_witness :
    testAddress.get_signature_data = testAddressMeta.get_signature_data :=
  (c8_signature_data Nat Nat Nat).2 testAddress testAddressMeta rfl rfl rfl

/-! ### Aggregation-layer configuration defaults -/

/-- C9: with an unset or unparsable environment variable the corresponding
field of `Config::default()` takes its documented default (1, 100 ms,
500 ms, 10); with a parsable value, that value is used. -/
theorem c9_config_default (envVar : String → Option String)
    (parseUsize parseU64 : String → Option Nat) :
    (parse_var envVar parseUsize ("HANDEL_UPDATE_COUNT") = none →
      (Config.defaultFromEnv envVar parseUsize parseU64).update_count = 1)
    ∧ (∀ n, parse_var envVar parseUsize ("HANDEL_UPDATE_COUNT") = some n →
      (Config.defaultFromEnv envVar parseUsize parseU64).update_count = n)
    ∧ (parse_var envVar parseU64 ("HANDEL_UPDATE_INTERVAL") = none →
      (Config.defaultFromEnv envVar parseUsize parseU64).update_interval
        = Duration.from_millis 100)
    ∧ (∀ n, parse_var envVar parseU64 ("HANDEL_UPDATE_INTERVAL") = some n →
      (Config.defaultFromEnv envVar parseUsize parseU64).update_interval
        = Duration.from_millis n)
    ∧ (parse_var envVar parseU64 ("HANDEL_TIMEOUT") = none →
      (Config.defaultFromEnv envVar parseUsize parseU64).timeout = Duration.from_millis 500)
    ∧ (∀ n, parse_var envVar parseU64 ("HANDEL_TIMEOUT") = some n →
      (Config.defaultFromEnv envVar parseUsize parseU64).timeout = Duration.from_millis n)
    ∧ (parse_var envVar parseUsize ("HANDEL_PEER_COUNT") = none →
      (Config.defaultFromEnv envVar parseUsize parseU64).peer_count = 10)
    ∧ (∀ n, parse_var envVar parseUsize ("HANDEL_PEER_COUNT") = some n →
      (Config.defaultFromEnv envVar parseUsize parseU64).peer_count = n) := by
  refine ⟨?_, ?_, ?_, ?_, ?_, ?_, ?_, ?_⟩
  · intro h; simp [Config.defaultFromEnv, h]
  · intro n h; simp [Config.defaultFromEnv, h]
  · intro h; simp [Config.defaultFromEnv, h, Duration.from_millis]
  · intro n h; simp [Config.defaultFromEnv, h, Duration.from_millis]
  · intro h; simp [Config.defaultFromEnv, h, Duration.from_millis]
  · intro n h; simp [Config.defaultFromEnv, h, Duration.from_millis]
  · intro h; simp [Config.defaultFromEnv, h]
  · intro n h; simp [Config.defaultFromEnv, h]

/-- Witness for C9: the all-unset environment yields the documented
defaults, and a parsable value overrides its default. -/
theorem c9_witness :
    (Config.defaultFromEnv (fun _ => none) (fun _ => none) (fun _ => none)).update_count = 1
    ∧ (Config.defaultFromEnv (fun _ => none) (fun _ => none) (fun _ => none)).update_interval
        = Duration.from_millis 100
    ∧ (Config.defaultFromEnv (fun _ => none) (fun _ => none) (fun _ => none)).timeout
        = Duration.from_millis 500
    ∧ (Config.defaultFromEnv (fun _ => none) (fun _ => none) (fun _ => none)).peer_count = 10
    ∧ (Config.defaultFromEnv (fun _ => some ("7"))
        (fun s => if s = ("7") then some 7 else none)
        (fun s => if s = ("7") then some 7 else none)).update_count = 7 := by
  obtain ⟨h1, -, h3, -, h5, -, h7, -⟩ :=
    c9_config_default (fun _ => none) (fun _ => none) (fun _ => none)
  obtain ⟨-, h2, -⟩ := c9_config_default (fun _ => some ("7"))
    (fun s => if s = ("7") then some 7 else none)
    (fun s => if s = ("7") then some 7 else none)
  exact ⟨h1 rfl, h3 rfl, h5 rfl, h7 rfl, h2 7 rfl⟩

end Albatross
